import Mathlib

/-
Verification of the biased second-order random-walk sampler (Node2Vec
corpus generation) described by this repository's specification and used
by src/notebooks/node2vec-node-classification.ipynb.

The notebooks invoke `BiasedRandomWalk.run` from an external graph-ML
library; the sampler's implementation is not part of the repository's
source tree, so the sampler below is modelled from the specification's
algorithm (spec sections 3, 4.1, 6, 7).  The notebook-level constants
(walk length, walks per node, p, q, roots) are translated from the
notebook source itself.
-/

/-- Modelled from the spec: the Graph interface of section 6 — a set of
node identifiers with a neighbor-lookup operation.  Node identifiers are
represented as naturals. -/
structure Graph where
  nodes : List Nat
  neighbors : Nat → List Nat

/-- Modelled from the spec: `contains(node) -> bool`, the membership test
of the Graph interface (spec section 6). -/
def Graph.contains (g : Graph) (v : Nat) : Bool :=
  g.nodes.contains v

/-- Modelled from the spec: the unnormalized weight the sampler assigns to
a candidate neighbor `x` of the current node, given the previous node
`prev` (spec section 4.1 step 2): `1/return_bias` if `x` is the previous
node, `1` if `x` is also a neighbor of the previous node, `1/explore_bias`
otherwise. -/
def stepWeight (g : Graph) (returnBias exploreBias : ℚ) (prev x : Nat) : ℚ :=
  if x = prev then 1 / returnBias
  else if x ∈ g.neighbors prev then 1
  else 1 / exploreBias

/-- Modelled from the spec: the normalization constant for a biased step
from `cur` with previous node `prev` — the sum of the unnormalized weights
over the neighbors of `cur` (spec section 4.1 step 3). -/
def totalWeight (g : Graph) (returnBias exploreBias : ℚ) (prev cur : Nat) : ℚ :=
  ((g.neighbors cur).map (stepWeight g returnBias exploreBias prev)).sum

/-- Modelled from the spec: the probability the sampler assigns to moving
to `x` from state `(prev?, cur)` (spec section 4.1 steps 2 and 3).  For
the first step (no previous node) the draw is uniform over the neighbors
of `cur`; afterwards it is the normalized three-case weighting.  Nodes
that are not neighbors of `cur` get probability 0. -/
def stepProb (g : Graph) (returnBias exploreBias : ℚ) (prev? : Option Nat)
    (cur x : Nat) : ℚ :=
  if x ∈ g.neighbors cur then
    match prev? with
    | none => 1 / ((g.neighbors cur).length : ℚ)
    | some prev =>
        stepWeight g returnBias exploreBias prev x /
          totalWeight g returnBias exploreBias prev cur
  else 0

/-- The step distribution of an unbiased first-order random walk, written
directly from the spec's words (section 8): "each step's distribution must
be uniform over current neighbors", independent of the previous node.
This is the spec-side definition for the refinement claim C6. -/
def uniformStepProb (g : Graph) (cur x : Nat) : ℚ :=
  if x ∈ g.neighbors cur then 1 / ((g.neighbors cur).length : ℚ) else 0

/-- Modelled from the spec: the probability that the sampler, continuing
from state `(prev?, cur)`, emits exactly the node sequence `rest` as its
next steps (product of the per-step probabilities of section 4.1). -/
def pathProb (g : Graph) (returnBias exploreBias : ℚ) :
    Option Nat → Nat → List Nat → ℚ
  | _, _, [] => 1
  | prev?, cur, x :: rest =>
      stepProb g returnBias exploreBias prev? cur x *
        pathProb g returnBias exploreBias (some cur) x rest

/-- Modelled from the spec: the probability that a single walk started at
the head of `w` traverses exactly the node sequence `w` (spec sections
4.1 and 8; used by the path-graph test property). -/
def walkProb (g : Graph) (returnBias exploreBias : ℚ) (w : List Nat) : ℚ :=
  match w with
  | [] => 0
  | root :: rest => pathProb g returnBias exploreBias none root rest

/-- The 4-node path graph A–B–C–D of the spec's test property (section 8),
with A,B,C,D encoded as 0,1,2,3. -/
def pathGraph : Graph where
  nodes := [0, 1, 2, 3]
  neighbors v :=
    if v = 0 then [1]
    else if v = 1 then [0, 2]
    else if v = 2 then [1, 3]
    else if v = 3 then [2]
    else []

-- Helper lemmas about list sums used by the distribution theorems.

lemma sum_map_div (l : List Nat) (f : Nat → ℚ) (c : ℚ) :
    (l.map (fun x => f x / c)).sum = (l.map f).sum / c := by
  induction l with
  | nil => simp
  | cons a t ih => simp [ih, add_div]

lemma sum_map_nonneg (l : List Nat) (f : Nat → ℚ)
    (hf : ∀ x ∈ l, 0 ≤ f x) : 0 ≤ (l.map f).sum := by
  induction l with
  | nil => simp
  | cons a t ih =>
      have h1 : 0 ≤ f a := hf a (by simp)
      have h2 : 0 ≤ (t.map f).sum := ih (fun x hx => hf x (by simp [hx]))
      simpa using add_nonneg h1 h2

lemma sum_map_pos (l : List Nat) (f : Nat → ℚ) (hne : l ≠ [])
    (hf : ∀ x ∈ l, 0 < f x) : 0 < (l.map f).sum := by
  cases l with
  | nil => exact absurd rfl hne
  | cons a t =>
      have h1 : 0 < f a := hf a (by simp)
      have h2 : 0 ≤ (t.map f).sum :=
        sum_map_nonneg t f (fun x hx => le_of_lt (hf x (by simp [hx])))
      simpa using add_pos_of_pos_of_nonneg h1 h2

lemma sum_map_const_one (l : List Nat) (f : Nat → ℚ)
    (hf : ∀ x ∈ l, f x = 1) : (l.map f).sum = (l.length : ℚ) := by
  induction l with
  | nil => simp
  | cons a t ih =>
      have ha : f a = 1 := hf a (by simp)
      have ht : (t.map f).sum = (t.length : ℚ) := by
        refine ih ?_
        intro x hx
        exact hf x (by simp [hx])
      simp [ha, ht]
      ring

lemma sum_map_const (l : List Nat) (c : ℚ) :
    (l.map (fun _ => c)).sum = (l.length : ℚ) * c := by
  induction l with
  | nil => simp
  | cons a t ih =>
      simp [ih]
      ring

lemma stepWeight_pos (g : Graph) (rb eb : ℚ) (hrb : 0 < rb) (heb : 0 < eb)
    (prev x : Nat) : 0 < stepWeight g rb eb prev x := by
  unfold stepWeight
  split
  · positivity
  · split
    · norm_num
    · positivity

lemma totalWeight_pos (g : Graph) (rb eb : ℚ) (hrb : 0 < rb) (heb : 0 < eb)
    (prev cur : Nat) (hne : g.neighbors cur ≠ []) :
    0 < totalWeight g rb eb prev cur := by
  unfold totalWeight
  exact sum_map_pos _ _ hne (fun x _ => stepWeight_pos g rb eb hrb heb prev x)

-- Operational sampler: a pure deterministic implementation threading an
-- explicit random seed, as the spec's design notes require (section 9:
-- "a stateless weighted-choice routine over an explicit probability
-- vector ... thread a random-generator handle explicitly").

/-- Modelled from the spec: the stateless weighted-choice routine of
section 9.  Given unnormalized weights `ws` and a sample point
`r ∈ [0, sum ws)`, returns the index of the interval containing `r`. -/
def pickIndex (ws : List ℚ) (r : ℚ) : Nat :=
  match ws with
  | [] => 0
  | w :: rest => if r < w then 0 else pickIndex rest (r - w) + 1

/-- Modelled from the spec: a deterministic source of randomness (spec
section 4.1: "Randomness is deterministic given a seed").  A linear
congruential step on the seed. -/
def lcg (s : Nat) : Nat :=
  (s * 1103515245 + 12345) % 2147483648

/-- Modelled from the spec: a rational sample in `[0, 1)` derived purely
from the seed. -/
def randUnit (s : Nat) : ℚ :=
  ((lcg s % 1048576 : Nat) : ℚ) / 1048576

/-- Modelled from the spec: one sampling step (spec section 4.1 steps
2 and 3).  From state `(prev?, cur)` with sample point `r` in
`[0, total weight)`, the candidate neighbors of `cur` are weighted
(uniformly for the first step, by `stepWeight` afterwards) and the
neighbor whose interval contains `r` is drawn. -/
def nextNode (g : Graph) (rb eb : ℚ) (prev? : Option Nat) (cur : Nat)
    (r : ℚ) : Nat :=
  let ns := g.neighbors cur
  let ws := match prev? with
    | none => ns.map (fun _ => (1 : ℚ))
    | some prev => ns.map (stepWeight g rb eb prev)
  ns.getD (pickIndex ws r) cur

/-- Modelled from the spec: the total unnormalized weight of the current
state, used to scale the unit sample into `[0, total)`. -/
def stateTotal (g : Graph) (rb eb : ℚ) (prev? : Option Nat) (cur : Nat) : ℚ :=
  match prev? with
  | none => ((g.neighbors cur).length : ℚ)
  | some prev => totalWeight g rb eb prev cur

/-- Modelled from the spec: the steps a walk emits after its root (spec
section 4.1 steps 1–5).  `fuel` is the number of nodes still to emit; the
walk terminates early when the current node has no neighbors (step 4). -/
def walkSteps (g : Graph) (rb eb : ℚ) (prev? : Option Nat) (cur : Nat)
    (fuel : Nat) (seed : Nat) : List Nat :=
  match fuel with
  | 0 => []
  | Nat.succ fuel =>
      if g.neighbors cur = [] then []
      else
        let r := randUnit seed * stateTotal g rb eb prev? cur
        let nxt := nextNode g rb eb prev? cur r
        nxt :: walkSteps g rb eb (some cur) nxt fuel (lcg seed)

/-- Modelled from the spec: a single walk of at most `len` nodes rooted at
`root` (spec section 4.1: the root is emitted first and has no
predecessor). -/
def walkFrom (g : Graph) (rb eb : ℚ) (root : Nat) (len : Nat)
    (seed : Nat) : List Nat :=
  root :: walkSteps g rb eb none root (len - 1) seed

/-- Modelled from the spec: a per-walk seed derived from the call seed,
the walk's root and its repetition index, so each walk uses an
independent stream (spec section 5). -/
def walkSeed (seed root i : Nat) : Nat :=
  seed + 1000003 * root + 97 * i

/-- Modelled from the spec: the corpus in root-major, repetition-minor
order (spec section 4.1: "all walks for root 0, then root 1, ..."). -/
def runWalks (g : Graph) (rb eb : ℚ) (roots : List Nat) (len n : Nat)
    (seed : Nat) : List (List Nat) :=
  (roots.map (fun root =>
    (List.range n).map (fun i => walkFrom g rb eb root len (walkSeed seed root i)))).flatten

/-- Modelled from the spec: the error taxonomy of section 7. -/
inductive WalkError where
  | invalidNode : WalkError
  | invalidParameter : WalkError
deriving DecidableEq

/-- Modelled from the spec: the sampler entry point
`run(graph, roots, length, num_walks_per_root, return_bias, explore_bias)`
(spec sections 4.1 and 7).  Validation happens before any walk is
produced, in the order the contract states its inputs: roots are checked
for membership first (`InvalidNodeError`), then length, repetition count
and biases (`InvalidParameterError`); only then is the corpus built.
`length` and `n` are integers so that non-positive and negative inputs
are expressible. -/
def run (g : Graph) (roots : List Nat) (len : ℤ) (n : ℤ) (rb eb : ℚ)
    (seed : Nat) : Except WalkError (List (List Nat)) :=
  if ¬ roots.all g.contains then .error .invalidNode
  else if len ≤ 0 ∨ n < 0 ∨ rb ≤ 0 ∨ eb ≤ 0 then .error .invalidParameter
  else .ok (runWalks g rb eb roots len.toNat n.toNat seed)

namespace Notebook

/-- Walk-parameter cell of src/notebooks/node2vec-node-classification.ipynb:
`random_walk_length = 100`. -/
def random_walk_length : Nat := 100

/-- Walk-parameter cell of the notebook: `num_walks_per_node = 10`. -/
def num_walks_per_node : Nat := 10

/-- Walk-parameter cell of the notebook: `p = 1.`. -/
def p : ℚ := 1

/-- Walk-parameter cell of the notebook: `q = 1.`. -/
def q : ℚ := 1

end Notebook

-- Interval correctness of the weighted-choice routine.

lemma pickIndex_interval (ws : List ℚ) (hw : ∀ w ∈ ws, 0 ≤ w) :
    ∀ i r, (ws.take i).sum ≤ r → r < (ws.take (i + 1)).sum →
      pickIndex ws r = i := by
  induction ws with
  | nil =>
      intro i r h1 h2
      simp at h1 h2
      linarith
  | cons w rest ih =>
      intro i r h1 h2
      cases i with
      | zero =>
          simp at h1 h2
          simp [pickIndex, if_pos h2]
      | succ i =>
          simp [List.take_succ_cons, List.sum_cons] at h1 h2
          have htak : 0 ≤ (rest.take i).sum := by
            refine List.sum_nonneg ?_
            intro x hx
            exact hw x (List.mem_cons_of_mem w (List.take_subset i rest hx))
          have hge : ¬ r < w := by linarith
          have hrest : pickIndex rest (r - w) = i := by
            refine ih (fun x hx => hw x (List.mem_cons_of_mem w hx)) i (r - w)
              (by linarith) (by linarith)
          simp [pickIndex, if_neg hge, hrest]

lemma getD_of_lt (l : List Nat) (i : Nat) (d : Nat) (h : i < l.length) :
    l.getD i d = l.get ⟨i, h⟩ := by
  induction l generalizing i with
  | nil => simp at h
  | cons a t ih =>
      cases i with
      | zero => rfl
      | succ i => exact ih i (by simpa using h)

/-- C1: After the first step, from state `(previous_node, current_node)`
the sampler weights each neighbor `x` of the current node by
`1/return_bias` if `x` is the previous node, by `1` if `x` is also a
neighbor of the previous node, and by `1/explore_bias` otherwise, then
normalizes the weights into a probability distribution (the probabilities
over the neighbors sum to 1) and draws the next node from it (the drawn
neighbor is the one whose weight interval contains the sample point); for
the first step the draw is uniform over the root's neighbors. -/
theorem step_distribution_c1 (g : Graph) (rb eb : ℚ) (prev cur : Nat)
    (hrb : 0 < rb) (heb : 0 < eb) (hne : g.neighbors cur ≠ []) :
    (((g.neighbors cur).map (stepProb g rb eb (some prev) cur)).sum = 1
      ∧ ((g.neighbors cur).map (stepProb g rb eb none cur)).sum = 1)
    ∧ (∀ x ∈ g.neighbors cur,
        stepProb g rb eb (some prev) cur x
            = (if x = prev then 1 / rb
               else if x ∈ g.neighbors prev then 1 else 1 / eb)
              / totalWeight g rb eb prev cur
          ∧ stepProb g rb eb none cur x
              = 1 / ((g.neighbors cur).length : ℚ))
    ∧ (∀ i r, ∀ hi : i < (g.neighbors cur).length,
        (((g.neighbors cur).map (stepWeight g rb eb prev)).take i).sum ≤ r →
        r < (((g.neighbors cur).map (stepWeight g rb eb prev)).take (i + 1)).sum →
        nextNode g rb eb (some prev) cur r = (g.neighbors cur).get ⟨i, hi⟩) := by
  have hT : 0 < totalWeight g rb eb prev cur :=
    totalWeight_pos g rb eb hrb heb prev cur hne
  have hlen : ((g.neighbors cur).length : ℚ) ≠ 0 := by
    have : g.neighbors cur ≠ [] := hne
    simp [List.length_eq_zero]
    exact this
  refine ⟨⟨?_, ?_⟩, ?_, ?_⟩
  · have hcongr : (g.neighbors cur).map (stepProb g rb eb (some prev) cur)
        = (g.neighbors cur).map
            (fun x => stepWeight g rb eb prev x / totalWeight g rb eb prev cur) := by
      refine List.map_congr_left ?_
      intro x hx
      simp [stepProb, hx]
    have hT2 : ((g.neighbors cur).map (stepWeight g rb eb prev)).sum ≠ 0 := by
      unfold totalWeight at hT
      exact ne_of_gt hT
    rw [hcongr, sum_map_div]
    unfold totalWeight
    rw [div_self hT2]
  · have hcongr : (g.neighbors cur).map (stepProb g rb eb none cur)
        = (g.neighbors cur).map
            (fun _ => 1 / ((g.neighbors cur).length : ℚ)) := by
      refine List.map_congr_left ?_
      intro x hx
      simp [stepProb, hx]
    rw [hcongr, sum_map_const _ _]
    field_simp
  · intro x hx
    constructor
    · simp [stepProb, hx, stepWeight]
    · simp [stepProb, hx]
  · intro i r hi h1 h2
    have hw : ∀ w ∈ (g.neighbors cur).map (stepWeight g rb eb prev), 0 ≤ w := by
      intro w hwm
      rcases List.mem_map.mp hwm with ⟨x, _, rfl⟩
      exact le_of_lt (stepWeight_pos g rb eb hrb heb prev x)
    have hpick := pickIndex_interval _ hw i r h1 h2
    simp only [nextNode, hpick]
    exact getD_of_lt _ i cur hi

theorem step_distribution_c1_witness :
    ((pathGraph.neighbors 2).map (stepProb pathGraph 2 3 (some 1) 2)).sum = 1 :=
  (step_distribution_c1 pathGraph 2 3 1 2 (by norm_num) (by norm_num)
    (by decide)).1.1

/-- C6: With `return_bias = explore_bias = 1`, the sampler's step
distribution coincides with the unbiased first-order random walk: at
every step — whether or not a previous node exists — the next node is
drawn uniformly from the neighbors of the current node, independently of
the previous node. -/
theorem unbiased_when_biases_one (g : Graph) (prev? : Option Nat)
    (cur x : Nat) :
    stepProb g 1 1 prev? cur x = uniformStepProb g cur x := by
  cases prev? with
  | none =>
      by_cases hx : x ∈ g.neighbors cur
      · simp [stepProb, uniformStepProb, hx]
      · simp [stepProb, uniformStepProb, hx]
  | some prev =>
      by_cases hx : x ∈ g.neighbors cur
      · have hw : stepWeight g 1 1 prev x = 1 := by
          unfold stepWeight
          split
          · norm_num
          · split
            · rfl
            · norm_num
        have hT : totalWeight g 1 1 prev cur
            = ((g.neighbors cur).length : ℚ) := by
          unfold totalWeight
          refine sum_map_const_one _ _ ?_
          intro y _
          unfold stepWeight
          split
          · norm_num
          · split
            · rfl
            · norm_num
        simp [stepProb, uniformStepProb, hx, hw, hT]
      · simp [stepProb, uniformStepProb, hx]

/-- C5 counterexample: on the path graph A–B–C–D (0–1–2–3) with
`return_bias = 1` and `explore_bias = 100`, the walk A,B,C,D is not
overwhelmingly likely — its probability is below 1/2 — and it is strictly
less likely than the walk A,B,A,B, which returns to A. -/
theorem c5_counterexample :
    walkProb pathGraph 1 100 [0, 1, 2, 3] < walkProb pathGraph 1 100 [0, 1, 0, 1]
      ∧ walkProb pathGraph 1 100 [0, 1, 2, 3] < 1 / 2 := by
  refine ⟨?_, ?_⟩ <;>
    norm_num [walkProb, pathProb, stepProb, stepWeight, totalWeight, pathGraph]

/-- C5 amended: on the path graph A–B–C–D with root A, `return_bias = 1`
and `explore_bias = 100`, a length-4 walk started at A returns toward A
with overwhelming probability: the returning walk A,B,A,B has probability
greater than 9/10, while the outward walk A,B,C,D has probability exactly
1/10201 — in particular strictly below that of the returning walk. -/
theorem c5_amended :
    walkProb pathGraph 1 100 [0, 1, 0, 1] > 9 / 10
      ∧ walkProb pathGraph 1 100 [0, 1, 2, 3] = 1 / 10201
      ∧ walkProb pathGraph 1 100 [0, 1, 2, 3]
          < walkProb pathGraph 1 100 [0, 1, 0, 1] := by
  refine ⟨?_, ?_, ?_⟩ <;>
    norm_num [walkProb, pathProb, stepProb, stepWeight, totalWeight, pathGraph]

-- Structure of the corpus: length and root-major indexing.

lemma flatten_map_length (roots : List Nat) (f : Nat → List (List Nat))
    (n : Nat) (hf : ∀ r, (f r).length = n) :
    ((roots.map f).flatten).length = roots.length * n := by
  induction roots with
  | nil => simp
  | cons r t ih =>
      simp [hf, ih]
      ring

lemma flatten_map_get (f : Nat → List (List Nat)) (n : Nat)
    (hf : ∀ r, (f r).length = n) :
    ∀ (roots : List Nat) (j i : Nat) (hj : j < roots.length) (hi : i < n)
      (hidx : j * n + i < ((roots.map f).flatten).length),
      ((roots.map f).flatten).get ⟨j * n + i, hidx⟩
        = (f (roots.get ⟨j, hj⟩)).get ⟨i, by rw [hf]; exact hi⟩ := by
  intro roots
  induction roots with
  | nil =>
      intro j i hj
      simp at hj
  | cons r t ih =>
      intro j i hj hi hidx
      cases j with
      | zero =>
          have hi2 : 0 * n + i < (f r).length := by
            rw [hf]
            simpa using hi
          simp only [List.map_cons, List.flatten_cons, List.get_eq_getElem]
          rw [List.getElem_append_left hi2]
          simp
      | succ j =>
          have hj2 : j < t.length := by simpa using hj
          have hexp : (j + 1) * n = j * n + n := by ring
          have hge : (f r).length ≤ (j + 1) * n + i := by
            rw [hf, hexp]
            omega
          have hidx2 : j * n + i < ((t.map f).flatten).length := by
            simp only [List.map_cons, List.flatten_cons, List.length_append] at hidx
            have hn : (f r).length = n := hf r
            omega
          have harith : (j + 1) * n + i - (f r).length = j * n + i := by
            rw [hf, hexp]
            omega
          have hrec := ih j i hj2 hi hidx2
          simp only [List.map_cons, List.flatten_cons, List.get_eq_getElem] at hrec ⊢
          rw [List.getElem_append_right hge]
          simp only [harith]
          rw [hrec]
          simp

lemma runWalks_length (g : Graph) (rb eb : ℚ) (roots : List Nat)
    (len n seed : Nat) :
    (runWalks g rb eb roots len n seed).length = roots.length * n := by
  unfold runWalks
  exact flatten_map_length roots _ n (fun r => by simp)

lemma runWalks_get (g : Graph) (rb eb : ℚ) (roots : List Nat)
    (len n seed : Nat) (j i : Nat) (hj : j < roots.length) (hi : i < n)
    (hidx : j * n + i < (runWalks g rb eb roots len n seed).length) :
    (runWalks g rb eb roots len n seed).get ⟨j * n + i, hidx⟩
      = walkFrom g rb eb (roots.get ⟨j, hj⟩) len
          (walkSeed seed (roots.get ⟨j, hj⟩) i) := by
  unfold runWalks at hidx ⊢
  have h := flatten_map_get
    (fun root => (List.range n).map
      (fun i => walkFrom g rb eb root len (walkSeed seed root i)))
    n (fun r => by simp) roots j i hj hi hidx
  rw [h]
  simp

lemma run_ok_inv (g : Graph) (roots : List Nat) (len n : ℤ) (rb eb : ℚ)
    (seed : Nat) (ws : List (List Nat))
    (h : run g roots len n rb eb seed = Except.ok ws) :
    roots.all g.contains = true
      ∧ 0 < len ∧ 0 ≤ n ∧ 0 < rb ∧ 0 < eb
      ∧ ws = runWalks g rb eb roots len.toNat n.toNat seed := by
  unfold run at h
  split at h
  · cases h
  · rename_i hc1
    split at h
    · cases h
    · rename_i hc2
      cases h
      push_neg at hc2
      obtain ⟨hl, hn, hrb, heb⟩ := hc2
      exact ⟨not_not.mp hc1, hl, hn, hrb, heb, rfl⟩

/-- C2: A successful call to `run` returns exactly
`roots.length * num_walks_per_root` walks, in root-major,
repetition-minor order: the walk at position `j * n + i` of the corpus is
the `i`-th repetition generated for root `roots[j]`. -/
theorem run_count_and_order (g : Graph) (roots : List Nat) (len n : ℤ)
    (rb eb : ℚ) (seed : Nat) (ws : List (List Nat))
    (h : run g roots len n rb eb seed = Except.ok ws) :
    (ws.length : ℤ) = (roots.length : ℤ) * n
      ∧ ∀ (j i : Nat) (hj : j < roots.length) (hi : i < n.toNat)
          (hidx : j * n.toNat + i < ws.length),
          ws.get ⟨j * n.toNat + i, hidx⟩
            = walkFrom g rb eb (roots.get ⟨j, hj⟩) len.toNat
                (walkSeed seed (roots.get ⟨j, hj⟩) i) := by
  obtain ⟨hall, hl, hn, hrb, heb, hws⟩ := run_ok_inv g roots len n rb eb seed ws h
  subst hws
  refine ⟨?_, ?_⟩
  · rw [runWalks_length]
    push_cast
    rw [Int.toNat_of_nonneg hn]
  · intro j i hj hi hidx
    exact runWalks_get g rb eb roots len.toNat n.toNat seed j i hj hi hidx

-- Walk length bounds and early termination.

lemma walkSteps_length_le (g : Graph) (rb eb : ℚ) :
    ∀ (fuel : Nat) (prev? : Option Nat) (cur seed : Nat),
      (walkSteps g rb eb prev? cur fuel seed).length ≤ fuel := by
  intro fuel
  induction fuel with
  | zero => intro prev? cur seed; simp [walkSteps]
  | succ fuel ih =>
      intro prev? cur seed
      unfold walkSteps
      split
      · simp
      · simpa using ih (some cur) _ (lcg seed)

lemma walkSteps_short_last (g : Graph) (rb eb : ℚ) :
    ∀ (fuel : Nat) (prev? : Option Nat) (cur seed : Nat),
      (walkSteps g rb eb prev? cur fuel seed).length < fuel →
      g.neighbors ((walkSteps g rb eb prev? cur fuel seed).getLastD cur) = [] := by
  intro fuel
  induction fuel with
  | zero => intro prev? cur seed h; simp [walkSteps] at h
  | succ fuel ih =>
      intro prev? cur seed h
      unfold walkSteps at h ⊢
      split at h
      · rename_i hemp
        rw [if_pos hemp]
        simpa using hemp
      · rename_i hemp
        rw [if_neg hemp]
        rw [List.getLastD_cons]
        refine ih (some cur) _ (lcg seed) ?_
        simpa using h

lemma mem_runWalks (g : Graph) (rb eb : ℚ) (roots : List Nat)
    (len n seed : Nat) (w : List Nat)
    (hw : w ∈ runWalks g rb eb roots len n seed) :
    ∃ root s, root ∈ roots ∧ w = walkFrom g rb eb root len s := by
  unfold runWalks at hw
  rw [List.mem_flatten] at hw
  obtain ⟨l, hl, hwl⟩ := hw
  rw [List.mem_map] at hl
  obtain ⟨root, hroot, rfl⟩ := hl
  rw [List.mem_map] at hwl
  obtain ⟨i, _, rfl⟩ := hwl
  exact ⟨root, walkSeed seed root i, hroot, rfl⟩

lemma walkFrom_length_le (g : Graph) (rb eb : ℚ) (root len seed : Nat)
    (hlen : 1 ≤ len) :
    (walkFrom g rb eb root len seed).length ≤ len := by
  unfold walkFrom
  have := walkSteps_length_le g rb eb (len - 1) none root seed
  simp
  omega

lemma walkFrom_short (g : Graph) (rb eb : ℚ) (root len seed : Nat)
    (h : (walkFrom g rb eb root len seed).length < len) :
    ∃ v ∈ walkFrom g rb eb root len seed, g.neighbors v = [] := by
  unfold walkFrom at h ⊢
  have hlt : (walkSteps g rb eb none root (len - 1) seed).length < len - 1 := by
    simp at h
    omega
  have hlast := walkSteps_short_last g rb eb (len - 1) none root seed hlt
  refine ⟨(walkSteps g rb eb none root (len - 1) seed).getLastD root, ?_, hlast⟩
  exact List.getLastD_mem_cons _ _

/-- C3: For every successful call to `run` with maximum length `len`,
every produced walk contains at most `len` nodes; it contains strictly
fewer only if some node on the walk has zero neighbors; and a walk whose
root has zero neighbors consists of exactly one node. -/
theorem walk_length_c3 (g : Graph) (roots : List Nat) (len n : ℤ)
    (rb eb : ℚ) (seed : Nat) (ws : List (List Nat)) (w : List Nat)
    (h : run g roots len n rb eb seed = Except.ok ws) (hw : w ∈ ws) :
    w.length ≤ len.toNat
      ∧ (w.length < len.toNat → ∃ v ∈ w, g.neighbors v = [])
      ∧ (∀ root s, w = walkFrom g rb eb root len.toNat s →
          g.neighbors root = [] → w.length = 1) := by
  obtain ⟨hall, hl, hn, hrb, heb, hws⟩ := run_ok_inv g roots len n rb eb seed ws h
  subst hws
  obtain ⟨root, s, hroot, rfl⟩ :=
    mem_runWalks g rb eb roots len.toNat n.toNat seed w hw
  have hlen1 : 1 ≤ len.toNat := by omega
  refine ⟨walkFrom_length_le g rb eb root len.toNat s hlen1, ?_, ?_⟩
  · intro hshort
    exact walkFrom_short g rb eb root len.toNat s hshort
  · intro root2 s2 heq hdeg
    have : walkFrom g rb eb root2 len.toNat s2
        = root2 :: walkSteps g rb eb none root2 (len.toNat - 1) s2 := rfl
    rw [heq, this]
    cases hfuel : len.toNat - 1 with
    | zero => simp [walkSteps]
    | succ fuel => simp [walkSteps, hdeg]

/-- A 2-node graph with a single edge 0–1, used to instantiate the
general theorems on a concrete input. -/
def twoGraph : Graph where
  nodes := [0, 1]
  neighbors v := if v = 0 then [1] else if v = 1 then [0] else []

lemma run_twoGraph_eval : run twoGraph [0] 1 1 1 1 7 = Except.ok [[0]] := by
  unfold run
  rw [if_neg, if_neg]
  · simp [runWalks, walkFrom, walkSteps]
  · push_neg
    norm_num
  · decide

theorem run_count_and_order_witness :
    (([[0]] : List (List Nat)).length : ℤ) = (([0] : List Nat).length : ℤ) * 1 :=
  (run_count_and_order twoGraph [0] 1 1 1 1 7 [[0]] run_twoGraph_eval).1

theorem walk_length_c3_witness :
    ([0] : List Nat).length ≤ (1 : ℤ).toNat :=
  (walk_length_c3 twoGraph [0] 1 1 1 1 7 [[0]] [0] run_twoGraph_eval
    (by simp)).1

/-- C4: In a successful call to `run`, every produced walk starts at the
root it was generated for: every walk of the corpus begins at some
requested root, and the walk at position `j * n + i` begins at
`roots[j]`. -/
theorem walk_starts_at_root_c4 (g : Graph) (roots : List Nat) (len n : ℤ)
    (rb eb : ℚ) (seed : Nat) (ws : List (List Nat))
    (h : run g roots len n rb eb seed = Except.ok ws) :
    (∀ w ∈ ws, ∃ root ∈ roots, w.head? = some root)
      ∧ ∀ (j i : Nat) (hj : j < roots.length) (hi : i < n.toNat)
          (hidx : j * n.toNat + i < ws.length),
          (ws.get ⟨j * n.toNat + i, hidx⟩).head? = some (roots.get ⟨j, hj⟩) := by
  obtain ⟨hall, hl, hn, hrb, heb, hws⟩ := run_ok_inv g roots len n rb eb seed ws h
  subst hws
  constructor
  · intro w hw
    obtain ⟨root, s, hroot, rfl⟩ :=
      mem_runWalks g rb eb roots len.toNat n.toNat seed w hw
    exact ⟨root, hroot, rfl⟩
  · intro j i hj hi hidx
    rw [runWalks_get g rb eb roots len.toNat n.toNat seed j i hj hi hidx]
    rfl

theorem walk_starts_at_root_c4_witness :
    (([[0]] : List (List Nat)).get ⟨0, by decide⟩).head? = some 0 :=
  (walk_starts_at_root_c4 twoGraph [0] 1 1 1 1 7 [[0]] run_twoGraph_eval).2
    0 0 (by decide) (by decide) (by decide)

lemma allContains_iff (g : Graph) (roots : List Nat) :
    roots.all g.contains = true ↔ ∀ r ∈ roots, r ∈ g.nodes := by
  simp [List.all_eq_true, Graph.contains]

/-- C7: `run` fails with `InvalidNodeError` exactly when some requested
root is not a node of the graph, and in that case it returns no walks at
all — there is no partial corpus. -/
theorem run_invalid_node_c7 (g : Graph) (roots : List Nat) (len n : ℤ)
    (rb eb : ℚ) (seed : Nat) :
    (run g roots len n rb eb seed = Except.error WalkError.invalidNode
        ↔ ∃ r ∈ roots, r ∉ g.nodes)
      ∧ ((∃ r ∈ roots, r ∉ g.nodes) →
          ∀ ws, run g roots len n rb eb seed ≠ Except.ok ws) := by
  by_cases hbad : ∃ r ∈ roots, r ∉ g.nodes
  · have hnall : ¬ roots.all g.contains = true := by
      rw [allContains_iff]
      push_neg
      exact hbad
    have hrun : run g roots len n rb eb seed = Except.error WalkError.invalidNode := by
      unfold run
      rw [if_pos hnall]
    refine ⟨⟨fun _ => hbad, fun _ => hrun⟩, ?_⟩
    intro _ ws
    rw [hrun]
    simp
  · have hall : roots.all g.contains = true := by
      rw [allContains_iff]
      push_neg at hbad
      exact hbad
    constructor
    · constructor
      · intro h
        exfalso
        unfold run at h
        rw [if_neg (not_not.2 hall)] at h
        split at h
        · simp at h
        · simp at h
      · intro h
        exact absurd h hbad
    · intro h
      exact absurd h hbad

theorem run_invalid_node_c7_witness :
    run pathGraph [7] 1 1 1 1 0 = Except.error WalkError.invalidNode :=
  (run_invalid_node_c7 pathGraph [7] 1 1 1 1 0).1.mpr
    ⟨7, by decide, by decide⟩

/-- C8 counterexample: with `length = 0` (non-positive) and a root that is
not a node of the graph, `run` fails with `InvalidNodeError`, not
`InvalidParameterError` — root validation precedes parameter validation,
so a non-positive length does not always produce `InvalidParameterError`. -/
theorem c8_counterexample :
    run pathGraph [7] 0 1 1 1 0 = Except.error WalkError.invalidNode
      ∧ run pathGraph [7] 0 1 1 1 0 ≠ Except.error WalkError.invalidParameter := by
  have h : run pathGraph [7] 0 1 1 1 0 = Except.error WalkError.invalidNode := by
    unfold run
    rw [if_pos]
    decide
  refine ⟨h, ?_⟩
  rw [h]
  simp

/-- C8 amended: provided every requested root is a node of the graph,
`run` fails with `InvalidParameterError` whenever the length is
non-positive, a bias is ≤ 0, or the repetition count is negative, and
this validation failure returns no walks at all — no partial corpus. -/
theorem run_invalid_parameter_c8 (g : Graph) (roots : List Nat)
    (len n : ℤ) (rb eb : ℚ) (seed : Nat)
    (hroots : ∀ r ∈ roots, r ∈ g.nodes)
    (hbad : len ≤ 0 ∨ n < 0 ∨ rb ≤ 0 ∨ eb ≤ 0) :
    run g roots len n rb eb seed = Except.error WalkError.invalidParameter
      ∧ ∀ ws, run g roots len n rb eb seed ≠ Except.ok ws := by
  have hall : roots.all g.contains = true := (allContains_iff g roots).2 hroots
  have hrun : run g roots len n rb eb seed
      = Except.error WalkError.invalidParameter := by
    unfold run
    rw [if_neg (not_not.2 hall), if_pos hbad]
  refine ⟨hrun, ?_⟩
  intro ws
  rw [hrun]
  simp

theorem run_invalid_parameter_c8_witness :
    run pathGraph [0] 0 1 1 1 0 = Except.error WalkError.invalidParameter :=
  (run_invalid_parameter_c8 pathGraph [0] 0 1 1 1 0 (by decide)
    (Or.inl (by norm_num))).1

/-- C9: `run` is deterministic and pure relative to its explicit seed:
two calls with identical graph, roots, parameters and the same seed
return identical corpora. -/
theorem run_deterministic_c9 (g : Graph) (roots : List Nat) (len n : ℤ)
    (rb eb : ℚ) (s1 s2 : Nat) (hseed : s1 = s2) :
    run g roots len n rb eb s1 = run g roots len n rb eb s2 := by
  rw [hseed]

theorem run_deterministic_c9_witness :
    run pathGraph [0, 1] 4 2 1 1 7 = run pathGraph [0, 1] 4 2 1 1 7 :=
  run_deterministic_c9 pathGraph [0, 1] 4 2 1 1 7 7 rfl

-- Walks on a graph whose nodes all have neighbors never terminate early.

lemma getD_mem_or (l : List Nat) :
    ∀ (i d : Nat), l.getD i d ∈ l ∨ l.getD i d = d := by
  induction l with
  | nil =>
      intro i d
      right
      cases i <;> rfl
  | cons a t ih =>
      intro i d
      cases i with
      | zero =>
          left
          simp
      | succ i =>
          rcases ih i d with h | h
          · left
            simp only [List.getD_cons_succ]
            exact List.mem_cons_of_mem a h
          · right
            simpa using h

lemma nextNode_mem (g : Graph) (rb eb : ℚ) (prev? : Option Nat) (cur : Nat)
    (r : ℚ) (hclosed : ∀ x ∈ g.neighbors cur, x ∈ g.nodes)
    (hcur : cur ∈ g.nodes) :
    nextNode g rb eb prev? cur r ∈ g.nodes := by
  have hgen : ∀ idx, (g.neighbors cur).getD idx cur ∈ g.nodes := by
    intro idx
    rcases getD_mem_or (g.neighbors cur) idx cur with h | h
    · exact hclosed _ h
    · rw [h]
      exact hcur
  exact hgen _

lemma walkSteps_full_length (g : Graph) (rb eb : ℚ)
    (hclosed : ∀ v ∈ g.nodes, ∀ x ∈ g.neighbors v, x ∈ g.nodes)
    (hdeg : ∀ v ∈ g.nodes, g.neighbors v ≠ []) :
    ∀ (fuel : Nat) (prev? : Option Nat) (cur seed : Nat), cur ∈ g.nodes →
      (walkSteps g rb eb prev? cur fuel seed).length = fuel := by
  intro fuel
  induction fuel with
  | zero =>
      intro prev? cur seed _
      simp [walkSteps]
  | succ fuel ih =>
      intro prev? cur seed hcur
      unfold walkSteps
      rw [if_neg (hdeg cur hcur)]
      have hnxt : nextNode g rb eb prev? cur
          (randUnit seed * stateTotal g rb eb prev? cur) ∈ g.nodes :=
        nextNode_mem g rb eb prev? cur _ (hclosed cur hcur) hcur
      simpa using ih (some cur) _ (lcg seed) hnxt

lemma walkFrom_full_length (g : Graph) (rb eb : ℚ)
    (hclosed : ∀ v ∈ g.nodes, ∀ x ∈ g.neighbors v, x ∈ g.nodes)
    (hdeg : ∀ v ∈ g.nodes, g.neighbors v ≠ []) (root len seed : Nat)
    (hroot : root ∈ g.nodes) (hlen : 1 ≤ len) :
    (walkFrom g rb eb root len seed).length = len := by
  unfold walkFrom
  rw [List.length_cons,
    walkSteps_full_length g rb eb hclosed hdeg (len - 1) none root seed hroot]
  omega

/-- C10: In the Node2Vec notebook's pipeline the roots handed to the
walker are exactly the graph's node list and the graph (the largest
connected component of the citation network) is closed under adjacency
with no isolated node.  Under this precondition the call with the
notebook's parameters (`length = 100`, `n = 10`, `p = q = 1`) cannot
raise `InvalidNodeError`, no walk terminates early, and every produced
walk contains exactly `random_walk_length = 100` nodes. -/
theorem pipeline_full_length_c10 (g : Graph) (seed : Nat)
    (hclosed : ∀ v ∈ g.nodes, ∀ x ∈ g.neighbors v, x ∈ g.nodes)
    (hdeg : ∀ v ∈ g.nodes, g.neighbors v ≠ []) :
    (∃ ws, run g g.nodes (Notebook.random_walk_length : ℤ)
        (Notebook.num_walks_per_node : ℤ) Notebook.p Notebook.q seed
        = Except.ok ws)
      ∧ ∀ ws, run g g.nodes (Notebook.random_walk_length : ℤ)
          (Notebook.num_walks_per_node : ℤ) Notebook.p Notebook.q seed
          = Except.ok ws →
        ∀ w ∈ ws, w.length = Notebook.random_walk_length := by
  have hall : g.nodes.all g.contains = true :=
    (allContains_iff g g.nodes).2 (fun r hr => hr)
  have hparams : ¬ ((Notebook.random_walk_length : ℤ) ≤ 0
      ∨ (Notebook.num_walks_per_node : ℤ) < 0
      ∨ Notebook.p ≤ 0 ∨ Notebook.q ≤ 0) := by
    push_neg
    refine ⟨?_, ?_, ?_, ?_⟩ <;>
      norm_num [Notebook.random_walk_length, Notebook.num_walks_per_node,
        Notebook.p, Notebook.q]
  have hrun : run g g.nodes (Notebook.random_walk_length : ℤ)
      (Notebook.num_walks_per_node : ℤ) Notebook.p Notebook.q seed
      = Except.ok (runWalks g Notebook.p Notebook.q g.nodes
          (Notebook.random_walk_length : ℤ).toNat
          (Notebook.num_walks_per_node : ℤ).toNat seed) := by
    unfold run
    rw [if_neg (not_not.2 hall), if_neg hparams]
  refine ⟨⟨_, hrun⟩, ?_⟩
  intro ws hws w hw
  rw [hrun] at hws
  cases hws
  obtain ⟨root, s, hroot, rfl⟩ := mem_runWalks g Notebook.p Notebook.q g.nodes
    (Notebook.random_walk_length : ℤ).toNat
    (Notebook.num_walks_per_node : ℤ).toNat seed w hw
  have hlen : (1 : Nat) ≤ (Notebook.random_walk_length : ℤ).toNat := by
    norm_num [Notebook.random_walk_length]
  rw [walkFrom_full_length g Notebook.p Notebook.q hclosed hdeg root _ s
    hroot hlen]
  norm_num [Notebook.random_walk_length]
  rfl

theorem pipeline_full_length_c10_witness :
    ∃ ws, run twoGraph twoGraph.nodes (Notebook.random_walk_length : ℤ)
      (Notebook.num_walks_per_node : ℤ) Notebook.p Notebook.q 0
      = Except.ok ws :=
  (pipeline_full_length_c10 twoGraph 0 (by decide) (by decide)).1
